import Mathlib

/-!
# Verification of the silence-srt timeline reconciliation core

Shallow embedding of `silence-srt.py`: the acoustic timeline builder
(silence derivation from detected events), the SRT timestamp parser,
the subtract-only reconciler, and the expand/subtract reconciler with
orphan (non-speech) detection.  Times are modelled as exact rationals.
-/

/-- A subtitle record as produced by `parse_srt`: a dict with keys
`index`, `start_time`, `end_time`, `text`. -/
structure SubtitleSegment where
  index : ℤ
  start_time : ℚ
  end_time : ℚ
  text : String
deriving DecidableEq

/-!
## Acoustic Timeline Builder

Embeds the silence-derivation loop of `main` (the `else` branch of
`args.negate`, lines 95-107): a cursor starts at 0; for each event the
candidate silence is `[cursor (+ tol if cursor > 0), event.start - tol]`;
the cursor advances to `event.end` regardless; the candidate is kept only
when its duration is at least `min_silence_dur`.
-/

/-- One step per detected event, threading the cursor `cur`.
`tol` is the hard-coded `analysis_window` (0.01 s in the source). -/
def buildSilencesGo (tol minDur : ℚ) : ℚ → List (ℚ × ℚ) → List (ℚ × ℚ)
  | _, [] => []
  | cur, (es, ee) :: rest =>
    let s := if 0 < cur then cur + tol else cur
    let e := es - tol
    if e - s < minDur then buildSilencesGo tol minDur ee rest
    else (s, e) :: buildSilencesGo tol minDur ee rest

/-- The silence segments derived from the detector's event list. -/
def buildSilences (tol minDur : ℚ) (events : List (ℚ × ℚ)) : List (ℚ × ℚ) :=
  buildSilencesGo tol minDur 0 events

/-- All candidate silence gaps, before the minimum-duration filter. -/
def buildCandidatesGo (tol : ℚ) : ℚ → List (ℚ × ℚ) → List (ℚ × ℚ)
  | _, [] => []
  | cur, (es, ee) :: rest =>
    (if 0 < cur then cur + tol else cur, es - tol) :: buildCandidatesGo tol ee rest

/-- Candidate gaps of the whole event list (cursor starting at 0). -/
def buildCandidates (tol : ℚ) (events : List (ℚ × ℚ)) : List (ℚ × ℚ) :=
  buildCandidatesGo tol 0 events

/-!
## `time_to_seconds`

Embeds the regex `(\d{1,2}):(\d{2}):(\d{2})[,.](\d+)` applied with
`re.match` (anchored at the start of the string only: trailing characters
after the match are ignored), followed by
`ms = int(ms_str.ljust(3, '0')[:3])` and
`hours*3600 + minutes*60 + seconds + ms / 1000`.
-/

/-- Numeric value of an ASCII digit. -/
def digitVal (c : Char) : ℕ := c.toNat - 48

/-- `\d{1,2}` followed by `:` — greedy with backtracking, as in the
regex: two digits are preferred and one digit is only accepted when the
second character is the colon itself. Returns the hours value and the
remaining characters. -/
def parseHours : List Char → Option (ℕ × List Char)
  | a :: b :: rest =>
    if a.isDigit then
      if b.isDigit then
        match rest with
        | ':' :: rest2 => some (10 * digitVal a + digitVal b, rest2)
        | _ => none
      else if b = ':' then some (digitVal a, rest)
      else none
    else none
  | _ => none

/-- `\d{2}`: exactly two digits. -/
def parseTwoDigits : List Char → Option (ℕ × List Char)
  | a :: b :: rest =>
    if a.isDigit ∧ b.isDigit then some (10 * digitVal a + digitVal b, rest) else none
  | _ => none

/-- The maximal leading run of digits (`\d+` is greedy) and the rest. -/
def takeDigits : List Char → List Char × List Char
  | [] => ([], [])
  | c :: cs =>
    if c.isDigit then
      let p := takeDigits cs
      (c :: p.1, p.2)
    else ([], c :: cs)

/-- Digits of the millisecond group, maximal leading run. -/
def msDigits (cs : List Char) : List Char := (takeDigits cs).1

/-- `int(ms_str.ljust(3, '0')[:3])`: right-pad with zeros to three
characters, keep the first three. -/
def msValue : List Char → ℕ
  | [] => 0
  | [a] => 100 * digitVal a
  | [a, b] => 100 * digitVal a + 10 * digitVal b
  | a :: b :: c :: _ => 100 * digitVal a + 10 * digitVal b + digitVal c

/-- The literal `:` of the pattern. -/
def expectColon : List Char → Option (List Char)
  | ':' :: r => some r
  | _ => none

/-- `[,.]`: a comma or dot separator. -/
def expectSep : List Char → Option (List Char)
  | c :: r => if c = ',' ∨ c = '.' then some r else none
  | [] => none

/-- `\d+` needs at least one digit at the current position. -/
def headIsDigit : List Char → Bool
  | c :: _ => c.isDigit
  | [] => false

/-- `time_to_seconds`: parse `H{1,2}:MM:SS[,.]d+` as a prefix of the
character list; raise `ValueError` (modelled as `Except.error`) when the
prefix does not match. -/
def timeToSeconds (s : List Char) : Except String ℚ :=
  match parseHours s with
  | none => .error "Invalid time format"
  | some (h, r1) =>
    match parseTwoDigits r1 with
    | none => .error "Invalid time format"
    | some (m, r2) =>
      match expectColon r2 with
      | none => .error "Invalid time format"
      | some r3 =>
        match parseTwoDigits r3 with
        | none => .error "Invalid time format"
        | some (sec, r4) =>
          match expectSep r4 with
          | none => .error "Invalid time format"
          | some r5 =>
            if headIsDigit r5 then
              .ok ((h : ℚ) * 3600 + m * 60 + sec + (msValue (msDigits r5) : ℚ) / 1000)
            else .error "Invalid time format"

/-- `true` exactly on `Except.error`. -/
def exceptIsError {ε α : Type} : Except ε α → Bool
  | .error _ => true
  | .ok _ => false

/-!
## Subtract-only reconciler

Embeds the `args.subtract_only` branch of `main` (lines 145-177): a
pointer into the sorted silence list advances monotonically across all
subtitle segments; each segment's start may be moved forward to a
silence end, and its end backward to a silence start, before writing.
The pointer is modelled as the remaining suffix of the silence list.
-/

/-- `while index < len(silence_segments) and silence_segments[index][1] < t:
index += 1` — drop silences whose end is strictly before `t`. -/
def skipBefore (t : ℚ) : List (ℚ × ℚ) → List (ℚ × ℚ)
  | [] => []
  | (a, b) :: rest => if b < t then skipBefore t rest else (a, b) :: rest

/-- `if silence_start < start and start < silence_end and silence_end < end:
start = silence_end` on the current (first remaining) silence. -/
def fixStart (st en : ℚ) : List (ℚ × ℚ) → ℚ
  | (ss, se) :: _ => if ss < st ∧ st < se ∧ se < en then se else st
  | [] => st

/-- `if silence_start > start and end < silence_end and silence_start < end:
end = silence_start` on the current (first remaining) silence; `st` is the
already-updated start. -/
def fixEnd (st en : ℚ) : List (ℚ × ℚ) → ℚ
  | (ss, se) :: _ => if st < ss ∧ en < se ∧ ss < en then ss else en
  | [] => en

/-- The per-segment loop body of subtract-only mode, threading the
remaining silence suffix across segments. -/
def subtractGo (u : List (ℚ × ℚ)) : List SubtitleSegment → List SubtitleSegment
  | [] => []
  | s :: rest =>
    let u1 := skipBefore s.start_time u
    let st := fixStart s.start_time s.end_time u1
    let u2 := skipBefore s.end_time u1
    let en := fixEnd st s.end_time u2
    ⟨s.index, st, en, s.text⟩ :: subtractGo u2 rest

/-- Subtract-only mode: correct all segments against the silence list. -/
def subtractOnly (sils : List (ℚ × ℚ)) (subs : List SubtitleSegment) : List SubtitleSegment :=
  subtractGo sils subs

/-!
## Expand/subtract reconciler

Embeds the `else` branch (lines 179-293): subtitle segments and silence
segments are put into one list (subtitles first, then silences, matching
the construction order of `full_list`), stably sorted by start time
(Python's `list.sort` is stable), and walked once.
-/

/-- A record of `full_list`: the `kind` discriminator is the constructor. -/
inductive TimelineEntry where
  | seg (index : ℤ) (start_time end_time : ℚ) (text : String)
  | sil (start_time end_time : ℚ)
deriving DecidableEq

/-- The sort key `lambda x: x['start']`. -/
def TimelineEntry.startT : TimelineEntry → ℚ
  | .seg _ st _ _ => st
  | .sil st _ => st

/-- End time of an entry. -/
def TimelineEntry.endT : TimelineEntry → ℚ
  | .seg _ _ en _ => en
  | .sil _ en => en

/-- `x['kind'] == 'segment'`. -/
def TimelineEntry.isSeg : TimelineEntry → Bool
  | .seg _ _ _ _ => true
  | .sil _ _ => false

/-- `x['kind'] == 'silence'`. -/
def TimelineEntry.isSil : TimelineEntry → Bool
  | .seg _ _ _ _ => false
  | .sil _ _ => true

/-- The `index` field of a subtitle entry (0 on silences, which carry none). -/
def TimelineEntry.segIndex : TimelineEntry → ℤ
  | .seg i _ _ _ => i
  | .sil _ _ => 0

/-- Comparison used for the stable sort by `start`. -/
def entryLE (a b : TimelineEntry) : Prop := a.startT ≤ b.startT

instance : DecidableRel entryLE := fun a b =>
  inferInstanceAs (Decidable (a.startT ≤ b.startT))

/-- A subtitle record as a `full_list` entry (`'kind': 'segment'`). -/
def toEntry (s : SubtitleSegment) : TimelineEntry :=
  .seg s.index s.start_time s.end_time s.text

/-- A silence pair as a `full_list` entry (`'kind': 'silence'`). -/
def silEntry (p : ℚ × ℚ) : TimelineEntry := .sil p.1 p.2

/-- `full_list` after `full_list.sort(key=lambda x: x['start'])`:
subtitles are appended first, silences second, and the sort is stable,
which insertion sort reproduces. -/
def mergeTimeline (subs : List SubtitleSegment) (sils : List (ℚ × ℚ)) : List TimelineEntry :=
  List.insertionSort entryLE (subs.map toEntry ++ sils.map silEntry)

/-- A prepared entry of `non_speech_srt_entries`. -/
structure NonSpeechEntry where
  index : ℕ
  start_time : ℚ
  end_time : ℚ
  text : String
deriving DecidableEq

/-- The single-quote character, used in the non-speech description text. -/
def quoteChar : Char := Char.ofNat 39

/-- First subtitle entry of a list, with its `index` and `text`
(the backward scan applies this to the reversed processed prefix, the
forward scan to the entries after the following silence). -/
def findSegRef : List TimelineEntry → Option (ℤ × String)
  | [] => none
  | .seg i _ _ t :: _ => some (i, t)
  | .sil _ _ :: rest => findSegRef rest

/-- `str(obj['index']) + " " + obj['text'] if obj else sentinel`. -/
def describeRef (o : Option (ℤ × String)) (sentinel : String) : String :=
  match o with
  | some (i, t) => toString i ++ " " ++ t
  | none => sentinel

/-- The `srt_text` of a non-speech entry. -/
def nonSpeechText (p n : String) : String :=
  "Non-speech segment detected between segment " ++ quoteChar.toString ++ p
    ++ quoteChar.toString ++ " and segment " ++ quoteChar.toString ++ n
    ++ quoteChar.toString ++ "."

/-- Start value the walk assigns to a subtitle entry, given the entry
just before it (`full_list[index-1]`). -/
def adjStartOf (prev : Option TimelineEntry) (st en : ℚ) : ℚ :=
  match prev with
  | some (.sil _ pe) => if pe < en then pe else st
  | _ => st

/-- End value the walk assigns to a subtitle entry, given the entry just
after it (`full_list[index+1]`). -/
def adjEndOf (next : Option TimelineEntry) (en : ℚ) : ℚ :=
  match next with
  | some (.sil ns _) => ns
  | _ => en

/-- The single walk over `full_list` (lines 212-293).  `revPrev` is the
already-visited prefix in reverse (Python indexes the list directly; the
walk only ever reads immutable fields of earlier entries).  `nsOn` is
`args.non_speech_dir and loaded_audio_for_ns`; `ctr` is
`non_speech_file_counter`; `tol` is `analysis_window`.  Returns the
corrected subtitle records in write order together with the prepared
non-speech entries, or the `ValueError` raised on an invalid segment. -/
def expandWalkGo (nsOn : Bool) (tol : ℚ) :
    List TimelineEntry → List TimelineEntry → ℕ →
      Except String (List SubtitleSegment × List NonSpeechEntry)
  | _, [], _ => .ok ([], [])
  | revPrev, e :: rest, ctr =>
    match e with
    | .seg idx st en tx =>
      let st1 := adjStartOf revPrev.head? st en
      let en1 := adjEndOf rest.head? en
      if en1 < st1 then .error "Invalid segment"
      else
        match expandWalkGo nsOn tol (e :: revPrev) rest ctr with
        | .error m => .error m
        | .ok (outs, nss) => .ok (⟨idx, st1, en1, tx⟩ :: outs, nss)
    | .sil _ sen =>
      match rest.head? with
      | some (.sil nst _) =>
        let a := sen + tol
        let b := nst - tol
        if a < b then
          if nsOn then
            match expandWalkGo nsOn tol (e :: revPrev) rest (ctr + 1) with
            | .error m => .error m
            | .ok (outs, nss) =>
              .ok (outs,
                ⟨ctr, a, b,
                  nonSpeechText (describeRef (findSegRef revPrev) "start of audio")
                    (describeRef (findSegRef rest.tail) "end of audio")⟩ :: nss)
          else expandWalkGo nsOn tol (e :: revPrev) rest ctr
        else expandWalkGo nsOn tol (e :: revPrev) rest ctr
      | _ => expandWalkGo nsOn tol (e :: revPrev) rest ctr

/-- The whole expand/subtract pass over a merged timeline. -/
def expandWalk (nsOn : Bool) (tol : ℚ) (l : List TimelineEntry) :
    Except String (List SubtitleSegment × List NonSpeechEntry) :=
  expandWalkGo nsOn tol [] l 1


/-!
## Claim C1 — silence segments derived for two events
-/

/-- Counterexample to C1: for events `[(1,2),(5,6)]` with `tol = 0.01`
and the default `min_silence_dur = 0.05`, the builder produces TWO
silence segments, not one: a leading segment `[0, 1 - tol]` is derived
before the first event (the cursor starts at 0 and the candidate
`[0, 0.99]` passes the minimum-duration check). -/
theorem C1_counterexample :
    (buildSilences (1/100) (1/20) [(1,2),(5,6)]).length = 2 ∧
    (buildSilences (1/100) (1/20) [(1,2),(5,6)]).head? = some (0, 99/100) := by
  constructor <;> norm_num [buildSilences, buildSilencesGo]

/-- C1 (amended): for events `[(1,2),(5,6)]` with `tol = 0.01` and
`min_silence_dur = 0.05` the builder produces exactly the two segments
`[0, 1 - tol]` and `[2 + tol, 5 - tol]`; in general a leading silence
segment `[0, firstEvent.start - tol]` IS derived whenever its duration
reaches the minimum. -/
theorem C1_amended_silences :
    buildSilences (1/100) (1/20) [(1,2),(5,6)] = [(0, 99/100), (201/100, 499/100)] ∧
    ∀ (tol minDur a b : ℚ) (es : List (ℚ × ℚ)), minDur ≤ a - tol →
      buildSilences tol minDur ((a, b) :: es) = (0, a - tol) :: buildSilencesGo tol minDur b es := by
  constructor
  · norm_num [buildSilences, buildSilencesGo]
  · intro tol minDur a b es h
    simp only [buildSilences, buildSilencesGo, lt_irrefl, if_false, sub_zero]
    rw [if_neg (not_lt.mpr h)]

/-- Witness for `C1_amended_silences` at the claim's own input. -/
theorem C1_amended_silences_witness :
    buildSilences (1/100) (1/20) [(1,2),(5,6)]
      = (0, 1 - 1/100) :: buildSilencesGo (1/100) (1/20) 2 [(5,6)] :=
  C1_amended_silences.2 (1/100) (1/20) 1 2 [(5,6)] (by norm_num)

/-!
## Claim C10 — `time_to_seconds`
-/

lemma takeDigits_append {ds junk : List Char} (hds : ∀ d ∈ ds, d.isDigit)
    (hj : ∀ c ∈ junk.head?, c.isDigit = false) :
    (takeDigits (ds ++ junk)).1 = ds := by
  induction ds with
  | nil =>
    cases junk with
    | nil => rfl
    | cons c cs =>
      have : c.isDigit = false := hj c rfl
      simp [takeDigits, this]
  | cons d ds ih =>
    have hd : d.isDigit := hds d (by simp)
    simp [takeDigits, hd, ih (fun x hx => hds x (by simp [hx]))]

lemma parseHours_inv {s : List Char} {h : ℕ} {r : List Char}
    (hp : parseHours s = some (h, r)) :
    (∃ a, a.isDigit ∧ s = a :: ':' :: r) ∨
      (∃ a b, a.isDigit ∧ b.isDigit ∧ s = a :: b :: ':' :: r) := by
  match s with
  | [] => simp [parseHours] at hp
  | [a] => simp [parseHours] at hp
  | a :: b :: rest =>
    by_cases ha : a.isDigit
    · by_cases hb : b.isDigit
      · match rest with
        | ':' :: rest2 =>
          simp [parseHours, ha, hb] at hp
          exact Or.inr ⟨a, b, ha, hb, by rw [hp.2]⟩
        | [] => simp [parseHours, ha, hb] at hp
        | c :: rest2 =>
          by_cases hc : c = ':'
          · subst hc
            simp [parseHours, ha, hb] at hp
            exact Or.inr ⟨a, b, ha, hb, by rw [hp.2]⟩
          · simp [parseHours, ha, hb, hc] at hp
      · by_cases hb2 : b = ':'
        · subst hb2
          simp [parseHours, ha, hb] at hp
          exact Or.inl ⟨a, ha, by rw [hp.2]⟩
        · simp [parseHours, ha, hb, hb2] at hp
    · simp [parseHours, ha] at hp

lemma parseTwoDigits_inv {s : List Char} {h : ℕ} {r : List Char}
    (hp : parseTwoDigits s = some (h, r)) :
    ∃ a b, a.isDigit ∧ b.isDigit ∧ s = a :: b :: r := by
  match s with
  | [] => simp [parseTwoDigits] at hp
  | [a] => simp [parseTwoDigits] at hp
  | a :: b :: rest =>
    by_cases hab : a.isDigit ∧ b.isDigit
    · simp [parseTwoDigits, hab.1, hab.2] at hp
      exact ⟨a, b, hab.1, hab.2, by rw [hp.2]⟩
    · simp [parseTwoDigits, hab] at hp

lemma expectColon_inv {s r : List Char} (hp : expectColon s = some r) :
    s = ':' :: r := by
  match s with
  | [] => simp [expectColon] at hp
  | c :: t =>
    by_cases hc : c = ':'
    · subst hc; simp [expectColon] at hp; rw [hp]
    · simp [expectColon, hc] at hp

lemma expectSep_inv {s r : List Char} (hp : expectSep s = some r) :
    ∃ c, (c = ',' ∨ c = '.') ∧ s = c :: r := by
  match s with
  | [] => simp [expectSep] at hp
  | c :: t =>
    by_cases hc : c = ',' ∨ c = '.'
    · simp [expectSep, hc] at hp
      exact ⟨c, hc, by rw [hp]⟩
    · simp [expectSep, hc] at hp

lemma headIsDigit_inv {s : List Char} (hp : headIsDigit s = true) :
    ∃ c t, c.isDigit ∧ s = c :: t := by
  match s with
  | [] => simp [headIsDigit] at hp
  | c :: t => exact ⟨c, t, by simpa [headIsDigit] using hp, rfl⟩

lemma timeToSeconds_shaped1 (h1 m1 m2 s1 s2 sep : Char) (ds junk : List Char)
    (hh1 : h1.isDigit) (hm1 : m1.isDigit) (hm2 : m2.isDigit)
    (hs1 : s1.isDigit) (hs2 : s2.isDigit) (hsep : sep = ',' ∨ sep = '.')
    (hne : ds ≠ []) (hds : ∀ d ∈ ds, d.isDigit)
    (hj : ∀ c ∈ junk.head?, c.isDigit = false) :
    timeToSeconds (h1 :: ':' :: m1 :: m2 :: ':' :: s1 :: s2 :: sep :: (ds ++ junk)) =
      .ok ((digitVal h1 : ℚ) * 3600 + (10 * digitVal m1 + digitVal m2 : ℕ) * 60 +
        (10 * digitVal s1 + digitVal s2 : ℕ) + (msValue ds : ℚ) / 1000) := by
  match ds, hne with
  | d :: ds2, _ =>
    have hd : d.isDigit := hds d (by simp)
    have hcolon : (':' : Char).isDigit = false := by decide
    simp only [timeToSeconds, parseHours, parseTwoDigits, expectColon, expectSep, headIsDigit,
      hh1, hm1, hm2, hs1, hs2, hcolon, if_true, if_false, Bool.false_eq_true, ite_false,
      ite_true, and_self, List.cons_append, hd]
    rw [if_pos hsep]
    simp only [msDigits]
    rw [show d :: (ds2 ++ junk) = (d :: ds2) ++ junk from rfl, takeDigits_append hds hj]
    rw [if_pos hd]

lemma timeToSeconds_shaped2 (h1 h2 m1 m2 s1 s2 sep : Char) (ds junk : List Char)
    (hh1 : h1.isDigit) (hh2 : h2.isDigit) (hm1 : m1.isDigit) (hm2 : m2.isDigit)
    (hs1 : s1.isDigit) (hs2 : s2.isDigit) (hsep : sep = ',' ∨ sep = '.')
    (hne : ds ≠ []) (hds : ∀ d ∈ ds, d.isDigit)
    (hj : ∀ c ∈ junk.head?, c.isDigit = false) :
    timeToSeconds (h1 :: h2 :: ':' :: m1 :: m2 :: ':' :: s1 :: s2 :: sep :: (ds ++ junk)) =
      .ok ((10 * digitVal h1 + digitVal h2 : ℕ) * 3600 +
        (10 * digitVal m1 + digitVal m2 : ℕ) * 60 +
        (10 * digitVal s1 + digitVal s2 : ℕ) + (msValue ds : ℚ) / 1000) := by
  match ds, hne with
  | d :: ds2, _ =>
    have hd : d.isDigit := hds d (by simp)
    simp only [timeToSeconds, parseHours, parseTwoDigits, expectColon, expectSep, headIsDigit,
      hh1, hh2, hm1, hm2, hs1, hs2, if_true, ite_true, and_self, List.cons_append, hd]
    rw [if_pos hsep]
    simp only [msDigits]
    rw [show d :: (ds2 ++ junk) = (d :: ds2) ++ junk from rfl, takeDigits_append hds hj]
    rw [if_pos hd]

lemma timeToSeconds_ok_shape {s : List Char} {v : ℚ} (hok : timeToSeconds s = .ok v) :
    ∃ (hs : List Char) (m1 m2 s1 s2 sep d : Char) (tail : List Char),
      ((∃ a, hs = [a] ∧ a.isDigit) ∨ (∃ a b, hs = [a, b] ∧ a.isDigit ∧ b.isDigit)) ∧
      m1.isDigit ∧ m2.isDigit ∧ s1.isDigit ∧ s2.isDigit ∧
      (sep = ',' ∨ sep = '.') ∧ d.isDigit ∧
      s = hs ++ ':' :: m1 :: m2 :: ':' :: s1 :: s2 :: sep :: d :: tail := by
  rw [timeToSeconds] at hok
  rcases hph : parseHours s with _ | ⟨h, r1⟩
  · simp [hph] at hok
  simp only [hph] at hok
  rcases hp2 : parseTwoDigits r1 with _ | ⟨m, r2⟩
  · simp [hp2] at hok
  simp only [hp2] at hok
  rcases hpc : expectColon r2 with _ | r3
  · simp [hpc] at hok
  simp only [hpc] at hok
  rcases hp3 : parseTwoDigits r3 with _ | ⟨sec, r4⟩
  · simp [hp3] at hok
  simp only [hp3] at hok
  rcases hps : expectSep r4 with _ | r5
  · simp [hps] at hok
  simp only [hps] at hok
  by_cases hhd : headIsDigit r5
  · obtain ⟨m1, m2, hm1, hm2, hr1⟩ := parseTwoDigits_inv hp2
    obtain ⟨s1, s2, hs1, hs2, hr3⟩ := parseTwoDigits_inv hp3
    obtain ⟨sep, hsep, hr4⟩ := expectSep_inv hps
    obtain ⟨d, tl, hd, hr5⟩ := headIsDigit_inv hhd
    have hr2 : r2 = ':' :: r3 := expectColon_inv hpc
    rcases parseHours_inv hph with ⟨a, ha, hsa⟩ | ⟨a, b, ha, hb, hsa⟩
    · exact ⟨[a], m1, m2, s1, s2, sep, d, tl,
        Or.inl ⟨a, rfl, ha⟩, hm1, hm2, hs1, hs2, hsep, hd,
        by rw [hsa, hr1, hr2, hr3, hr4, hr5]; rfl⟩
    · exact ⟨[a, b], m1, m2, s1, s2, sep, d, tl,
        Or.inr ⟨a, b, rfl, ha, hb⟩, hm1, hm2, hs1, hs2, hsep, hd,
        by rw [hsa, hr1, hr2, hr3, hr4, hr5]; rfl⟩
  · rw [if_neg] at hok
    · simp at hok
    · simpa using hhd

/-- Counterexample to C10: `re.match` only anchors at the start of the
string, so a string that is NOT of the claimed shape (it has a trailing
non-digit character) still parses successfully instead of raising
`ValueError`. -/
theorem C10_counterexample :
    timeToSeconds ("0:00:01,5x".data) = .ok (3/2) ∧
    exceptIsError (timeToSeconds ("0:00:01,5x".data)) = false := by
  have h : timeToSeconds ("0:00:01,5x".data) = .ok (3/2) := by
    simp +decide [timeToSeconds, parseHours, parseTwoDigits, expectColon, expectSep,
      headIsDigit, msDigits, takeDigits, msValue, digitVal]
    norm_num
  exact ⟨h, by rw [h]; rfl⟩

/-- C10 (amended): a string beginning with `H:MM:SS` or `HH:MM:SS`, a
comma or dot, and at least one digit parses successfully; the
fractional part is the maximal digit run, normalized by `msValue` to
exactly three millisecond digits (right-padded with zeros below three,
truncated beyond three) and divided by 1000; characters after the
matched prefix are ignored; and conversely every successful parse means
the string begins with that shape (so any string not beginning with it
raises `ValueError`). -/
theorem C10_amended_timeToSeconds :
    (∀ (h1 m1 m2 s1 s2 sep : Char) (ds junk : List Char),
      h1.isDigit → m1.isDigit → m2.isDigit → s1.isDigit → s2.isDigit →
      (sep = ',' ∨ sep = '.') → ds ≠ [] → (∀ d ∈ ds, d.isDigit) →
      (∀ c ∈ junk.head?, c.isDigit = false) →
      timeToSeconds (h1 :: ':' :: m1 :: m2 :: ':' :: s1 :: s2 :: sep :: (ds ++ junk)) =
        .ok ((digitVal h1 : ℚ) * 3600 + (10 * digitVal m1 + digitVal m2 : ℕ) * 60 +
          (10 * digitVal s1 + digitVal s2 : ℕ) + (msValue ds : ℚ) / 1000)) ∧
    (∀ (h1 h2 m1 m2 s1 s2 sep : Char) (ds junk : List Char),
      h1.isDigit → h2.isDigit → m1.isDigit → m2.isDigit → s1.isDigit → s2.isDigit →
      (sep = ',' ∨ sep = '.') → ds ≠ [] → (∀ d ∈ ds, d.isDigit) →
      (∀ c ∈ junk.head?, c.isDigit = false) →
      timeToSeconds (h1 :: h2 :: ':' :: m1 :: m2 :: ':' :: s1 :: s2 :: sep :: (ds ++ junk)) =
        .ok ((10 * digitVal h1 + digitVal h2 : ℕ) * 3600 +
          (10 * digitVal m1 + digitVal m2 : ℕ) * 60 +
          (10 * digitVal s1 + digitVal s2 : ℕ) + (msValue ds : ℚ) / 1000)) ∧
    (∀ (s : List Char) (v : ℚ), timeToSeconds s = .ok v →
      ∃ (hs : List Char) (m1 m2 s1 s2 sep d : Char) (tail : List Char),
        ((∃ a, hs = [a] ∧ a.isDigit) ∨ (∃ a b, hs = [a, b] ∧ a.isDigit ∧ b.isDigit)) ∧
        m1.isDigit ∧ m2.isDigit ∧ s1.isDigit ∧ s2.isDigit ∧
        (sep = ',' ∨ sep = '.') ∧ d.isDigit ∧
        s = hs ++ ':' :: m1 :: m2 :: ':' :: s1 :: s2 :: sep :: d :: tail) := by
  refine ⟨?_, ?_, ?_⟩
  · intro h1 m1 m2 s1 s2 sep ds junk hh1 hm1 hm2 hs1 hs2 hsep hne hds hj
    exact timeToSeconds_shaped1 h1 m1 m2 s1 s2 sep ds junk hh1 hm1 hm2 hs1 hs2 hsep hne hds hj
  · intro h1 h2 m1 m2 s1 s2 sep ds junk hh1 hh2 hm1 hm2 hs1 hs2 hsep hne hds hj
    exact timeToSeconds_shaped2 h1 h2 m1 m2 s1 s2 sep ds junk hh1 hh2 hm1 hm2 hs1 hs2 hsep
      hne hds hj
  · intro s v hok
    exact timeToSeconds_ok_shape hok

/-- Witness for `C10_amended_timeToSeconds`: `"0:00:01,5x"` parses to
`0*3600 + 0*60 + 1 + 500/1000` seconds (the single fractional digit `5`
is padded to `500` ms, the trailing `x` is ignored). -/
theorem C10_amended_timeToSeconds_witness :
    timeToSeconds ('0' :: ':' :: '0' :: '0' :: ':' :: '0' :: '1' :: ',' :: (['5'] ++ ['x'])) =
      .ok ((digitVal '0' : ℚ) * 3600 + (10 * digitVal '0' + digitVal '0' : ℕ) * 60 +
        (10 * digitVal '0' + digitVal '1' : ℕ) + (msValue ['5'] : ℚ) / 1000) :=
  C10_amended_timeToSeconds.1 '0' '0' '0' '0' '1' ',' ['5'] ['x']
    (by decide) (by decide) (by decide) (by decide) (by decide)
    (Or.inl rfl) (by decide) (by decide) (by decide)

/-!
## Claim C2 — subtract-only mode never extends a segment
-/

/-- Start times never decrease in subtract-only mode. -/
lemma le_fixStart (st en : ℚ) (u : List (ℚ × ℚ)) : st ≤ fixStart st en u := by
  cases u with
  | nil => exact le_refl st
  | cons p r =>
    obtain ⟨ss, se⟩ := p
    simp only [fixStart]
    split_ifs with h
    · exact le_of_lt h.2.1
    · exact le_refl st

/-- End times never increase in subtract-only mode. -/
lemma fixEnd_le (st en : ℚ) (u : List (ℚ × ℚ)) : fixEnd st en u ≤ en := by
  cases u with
  | nil => exact le_refl en
  | cons p r =>
    obtain ⟨ss, se⟩ := p
    simp only [fixEnd]
    split_ifs with h
    · exact le_of_lt h.2.2
    · exact le_refl en

/-- C2 (confirmed): in subtract-only mode every corrected segment is a
subset of the original `[start, end)` window — the corrected start is
never less than the original start, the corrected end never greater
than the original end, and index and text are preserved. -/
theorem C2_subtract_only_subset :
    ∀ (sils : List (ℚ × ℚ)) (subs : List SubtitleSegment),
      List.Forall₂ (fun s o => s.start_time ≤ o.start_time ∧ o.end_time ≤ s.end_time ∧
        o.index = s.index ∧ o.text = s.text) subs (subtractOnly sils subs) := by
  intro sils subs
  unfold subtractOnly
  induction subs generalizing sils with
  | nil => exact List.Forall₂.nil
  | cons s rest ih =>
    exact List.Forall₂.cons ⟨le_fixStart _ _ _, fixEnd_le _ _ _, rfl, rfl⟩ (ih _)

/-!
## Claim C8 — invariants of the derived silence list
-/

lemma chain_shift {a b c : ℚ} {rest : List (ℚ × ℚ)}
    (h : List.Chain (fun x y : ℚ × ℚ => x.2 ≤ y.1) (a, b) rest) :
    List.Chain (fun x y : ℚ × ℚ => x.2 ≤ y.1) (c, b) rest := by
  cases h with
  | nil => exact List.Chain.nil
  | cons h1 h2 => exact List.Chain.cons h1 h2

lemma buildSilencesGo_lb (tol minDur : ℚ) (htol : 0 ≤ tol) :
    ∀ (es : List (ℚ × ℚ)) (c : ℚ),
      List.Chain (fun x y : ℚ × ℚ => x.2 ≤ y.1) (0, c) es →
      (∀ e ∈ es, e.1 < e.2) →
      ∀ s ∈ buildSilencesGo tol minDur c es, c ≤ s.1 := by
  intro es
  induction es with
  | nil => intro c _ _ s hs; simp [buildSilencesGo] at hs
  | cons e rest ih =>
    obtain ⟨a, b⟩ := e
    intro c hch hev s hs
    rw [List.chain_cons] at hch
    have hca : c ≤ a := hch.1
    have hab : a < b := hev (a, b) (by simp)
    have hch2 : List.Chain (fun x y : ℚ × ℚ => x.2 ≤ y.1) (0, b) rest := chain_shift hch.2
    have hev2 : ∀ e ∈ rest, e.1 < e.2 := fun e he => hev e (by simp [he])
    simp only [buildSilencesGo] at hs
    by_cases hk : a - tol - (if 0 < c then c + tol else c) < minDur
    · rw [if_pos hk] at hs
      have := ih b hch2 hev2 s hs
      linarith
    · rw [if_neg hk] at hs
      rcases List.mem_cons.mp hs with hhead | htail
      · rw [hhead]
        dsimp only
        split_ifs <;> linarith
      · have := ih b hch2 hev2 s htail
        linarith

lemma buildSilencesGo_pairwise (tol minDur : ℚ) (htol : 0 ≤ tol) (hmin : 0 ≤ minDur) :
    ∀ (es : List (ℚ × ℚ)) (c : ℚ),
      List.Chain' (fun x y : ℚ × ℚ => x.2 ≤ y.1) es →
      (∀ e ∈ es, e.1 < e.2) →
      List.Pairwise (fun s t : ℚ × ℚ => s.1 < t.1 ∧ s.2 < t.1)
        (buildSilencesGo tol minDur c es) := by
  intro es
  induction es with
  | nil => intro c _ _; simp [buildSilencesGo]
  | cons e rest ih =>
    obtain ⟨a, b⟩ := e
    intro c hch hev
    have hab : a < b := hev (a, b) (by simp)
    have hchain : List.Chain (fun x y : ℚ × ℚ => x.2 ≤ y.1) (a, b) rest := hch
    have hch2 : List.Chain (fun x y : ℚ × ℚ => x.2 ≤ y.1) (0, b) rest := chain_shift hchain
    have hchtail : List.Chain' (fun x y : ℚ × ℚ => x.2 ≤ y.1) rest := hch.tail
    have hev2 : ∀ e ∈ rest, e.1 < e.2 := fun e he => hev e (by simp [he])
    simp only [buildSilencesGo]
    by_cases hk : a - tol - (if 0 < c then c + tol else c) < minDur
    · rw [if_pos hk]
      exact ih b hchtail hev2
    · rw [if_neg hk]
      refine List.Pairwise.cons ?_ (ih b hchtail hev2)
      intro t ht
      have hbt : b ≤ t.1 := buildSilencesGo_lb tol minDur htol rest b hch2 hev2 t ht
      push_neg at hk
      refine ⟨?_, ?_⟩ <;> dsimp only <;> split_ifs at hk ⊢ <;> linarith

lemma buildSilencesGo_duration (tol minDur : ℚ) :
    ∀ (es : List (ℚ × ℚ)) (c : ℚ),
      ∀ s ∈ buildSilencesGo tol minDur c es, minDur ≤ s.2 - s.1 := by
  intro es
  induction es with
  | nil => intro c s hs; simp [buildSilencesGo] at hs
  | cons e rest ih =>
    obtain ⟨a, b⟩ := e
    intro c s hs
    simp only [buildSilencesGo] at hs
    by_cases hk : a - tol - (if 0 < c then c + tol else c) < minDur
    · rw [if_pos hk] at hs
      exact ih b s hs
    · rw [if_neg hk] at hs
      rcases List.mem_cons.mp hs with hhead | htail
      · rw [hhead]
        push_neg at hk
        simpa using hk
      · exact ih b s htail

lemma buildSilencesGo_filter (tol minDur : ℚ) :
    ∀ (es : List (ℚ × ℚ)) (c : ℚ),
      buildSilencesGo tol minDur c es =
        (buildCandidatesGo tol c es).filter (fun s => minDur ≤ s.2 - s.1) := by
  intro es
  induction es with
  | nil => intro c; rfl
  | cons e rest ih =>
    obtain ⟨a, b⟩ := e
    intro c
    simp only [buildSilencesGo, buildCandidatesGo, List.filter_cons]
    by_cases hk : a - tol - (if 0 < c then c + tol else c) < minDur
    · rw [if_pos hk, ih b]
      have h2 : ¬ (minDur ≤ a - tol - (if 0 < c then c + tol else c)) := not_le.mpr hk
      simp [h2]
    · rw [if_neg hk, ih b]
      have h2 : minDur ≤ a - tol - (if 0 < c then c + tol else c) := not_lt.mp hk
      simp [h2]

/-- C8 (confirmed): for ordered, non-overlapping events (each event's
start below its end, each end at most the next start), a nonnegative
tolerance and a nonnegative minimum duration, the derived silence list
is strictly increasing by start and pairwise disjoint (each segment
ends before the next starts), every kept segment's duration is at least
`minDur`, and the kept list is exactly the candidate list filtered by
duration — so short candidates are dropped while the cursor still
advances through the remaining events. -/
theorem C8_builder_invariants (tol minDur : ℚ) (events : List (ℚ × ℚ))
    (htol : 0 ≤ tol) (hmin : 0 ≤ minDur)
    (hev : ∀ e ∈ events, e.1 < e.2)
    (hch : List.Chain' (fun x y : ℚ × ℚ => x.2 ≤ y.1) events) :
    List.Pairwise (fun s t : ℚ × ℚ => s.1 < t.1 ∧ s.2 < t.1)
      (buildSilences tol minDur events) ∧
    (∀ s ∈ buildSilences tol minDur events, minDur ≤ s.2 - s.1) ∧
    buildSilences tol minDur events =
      (buildCandidates tol events).filter (fun s => minDur ≤ s.2 - s.1) := by
  refine ⟨?_, ?_, ?_⟩
  · exact buildSilencesGo_pairwise tol minDur htol hmin events 0 hch hev
  · exact buildSilencesGo_duration tol minDur events 0
  · exact buildSilencesGo_filter tol minDur events 0

/-- Witness for `C8_builder_invariants` at the two-event example. -/
theorem C8_builder_invariants_witness :
    List.Pairwise (fun s t : ℚ × ℚ => s.1 < t.1 ∧ s.2 < t.1)
      (buildSilences (1/100) (1/20) [(1,2),(5,6)]) ∧
    (∀ s ∈ buildSilences (1/100) (1/20) [(1,2),(5,6)], (1:ℚ)/20 ≤ s.2 - s.1) ∧
    buildSilences (1/100) (1/20) [(1,2),(5,6)] =
      (buildCandidates (1/100) [(1,2),(5,6)]).filter (fun s => (1:ℚ)/20 ≤ s.2 - s.1) :=
  C8_builder_invariants (1/100) (1/20) [(1,2),(5,6)] (by norm_num) (by norm_num)
    (by intro e he; simp only [List.mem_cons, List.not_mem_nil, or_false] at he
        rcases he with h | h <;> subst h <;> norm_num)
    (by simp [List.chain'_cons]; norm_num)

/-!
## Claim C6 — tie-break of the merged timeline at equal start times
-/

lemma pairwise_of_left {α} {R : α → α → Prop} {l : List α}
    (h : ∀ a ∈ l, ∀ b, R a b) : List.Pairwise R l := by
  induction l with
  | nil => exact List.Pairwise.nil
  | cons x l ih =>
    exact List.Pairwise.cons (fun b _ => h x (by simp) b)
      (ih (fun a ha b => h a (by simp [ha]) b))

lemma pairwise_of_right {α} {R : α → α → Prop} {l : List α}
    (h : ∀ b ∈ l, ∀ a, R a b) : List.Pairwise R l := by
  induction l with
  | nil => exact List.Pairwise.nil
  | cons x l ih =>
    exact List.Pairwise.cons (fun b hb => h b (by simp [hb]) x)
      (ih (fun b hb a => h b (by simp [hb]) a))

lemma pairwise_orderedInsert_stable {R : TimelineEntry → TimelineEntry → Prop}
    (hcomp : ∀ x y, ¬ entryLE x y → R y x)
    (x : TimelineEntry) (l : List TimelineEntry)
    (hx : ∀ c ∈ l, R x c) (hl : List.Pairwise R l) :
    List.Pairwise R (List.orderedInsert entryLE x l) := by
  induction l with
  | nil => exact List.pairwise_singleton R x
  | cons b l ih =>
    rw [List.orderedInsert]
    split_ifs with h
    · exact List.Pairwise.cons (fun c hc => hx c hc) hl
    · rcases List.pairwise_cons.mp hl with ⟨hb, hl2⟩
      refine List.Pairwise.cons ?_ (ih (fun c hc => hx c (by simp [hc])) hl2)
      intro c hc
      rcases (List.mem_orderedInsert entryLE).mp hc with hcx | hcl
      · rw [hcx]; exact hcomp x b h
      · exact hb c hcl

lemma pairwise_insertionSort_stable {R : TimelineEntry → TimelineEntry → Prop}
    (hcomp : ∀ x y, ¬ entryLE x y → R y x)
    (l : List TimelineEntry) (hl : List.Pairwise R l) :
    List.Pairwise R (List.insertionSort entryLE l) := by
  induction l with
  | nil => exact List.Pairwise.nil
  | cons x l ih =>
    rcases List.pairwise_cons.mp hl with ⟨hx, hl2⟩
    rw [List.insertionSort]
    exact pairwise_orderedInsert_stable hcomp x _
      (fun c hc => hx c ((List.mem_insertionSort entryLE).mp hc)) (ih hl2)

/-- C6 (amended): at equal start times the merged timeline places every
SUBTITLE entry before every silence entry — the opposite tie-break from
the claim — because `full_list` is built subtitles-first and Python's
sort is stable.  No silence entry ever precedes a subtitle entry of
equal start anywhere in the merged sequence, deterministically for
every input. -/
theorem C6_amended_merge_tiebreak (subs : List SubtitleSegment) (sils : List (ℚ × ℚ)) :
    List.Pairwise
      (fun a b => ¬(a.isSil = true ∧ b.isSeg = true ∧ TimelineEntry.startT a = TimelineEntry.startT b))
      (mergeTimeline subs sils) := by
  apply pairwise_insertionSort_stable
  · intro x y hxy
    rintro ⟨_, _, heq⟩
    exact hxy (le_of_eq heq.symm)
  · apply List.pairwise_append.mpr
    refine ⟨?_, ?_, ?_⟩
    · apply pairwise_of_left
      intro a ha b
      rcases List.mem_map.mp ha with ⟨s, _, hs⟩
      rintro ⟨hsil, _, _⟩
      rw [← hs] at hsil
      simp [toEntry, TimelineEntry.isSil] at hsil
    · apply pairwise_of_right
      intro b hb a
      rcases List.mem_map.mp hb with ⟨s, _, hs⟩
      rintro ⟨_, hseg, _⟩
      rw [← hs] at hseg
      simp [silEntry, TimelineEntry.isSeg] at hseg
    · intro a ha b hb
      rcases List.mem_map.mp ha with ⟨s, _, hs⟩
      rintro ⟨hsil, _, _⟩
      rw [← hs] at hsil
      simp [toEntry, TimelineEntry.isSil] at hsil

/-- Counterexample to C6: with a subtitle and a silence sharing start
time 1, the merged timeline places the SUBTITLE first, not the silence
as the claim states (`full_list` lists subtitles before silences and
the stable sort keeps that order at equal keys). -/
theorem C6_counterexample :
    mergeTimeline [⟨1, 1, 2, "a"⟩] [(1, 3)] =
      [TimelineEntry.seg 1 1 2 "a", TimelineEntry.sil 1 3] ∧
    (TimelineEntry.sil 1 3).startT = (TimelineEntry.seg 1 1 2 "a").startT := by
  constructor
  · norm_num [mergeTimeline, List.insertionSort, List.orderedInsert, entryLE,
      toEntry, silEntry, TimelineEntry.startT]
  · rfl

/-!
## Claim C5 — serialization order of corrected segments
-/

lemma expandWalkGo_indices (nsOn : Bool) (tol : ℚ) :
    ∀ (fl revPrev : List TimelineEntry) (ctr : ℕ)
      (outs : List SubtitleSegment) (nss : List NonSpeechEntry),
      expandWalkGo nsOn tol revPrev fl ctr = .ok (outs, nss) →
      outs.map SubtitleSegment.index =
        (fl.filter (fun e => e.isSeg)).map TimelineEntry.segIndex := by
  intro fl
  induction fl with
  | nil =>
    intro revPrev ctr outs nss hok
    simp only [expandWalkGo] at hok
    injection hok with h
    injection h with h1 h2
    rw [← h1]
    rfl
  | cons e rest ih =>
    intro revPrev ctr outs nss hok
    cases e with
    | seg idx st en tx =>
      simp only [expandWalkGo] at hok
      by_cases hbad : adjEndOf rest.head? en < adjStartOf revPrev.head? st en
      · rw [if_pos hbad] at hok; simp at hok
      · rw [if_neg hbad] at hok
        rcases hrec : expandWalkGo nsOn tol (TimelineEntry.seg idx st en tx :: revPrev) rest ctr
          with merr | ⟨outs2, nss2⟩ <;> rw [hrec] at hok
        · simp at hok
        · simp only [Except.ok.injEq, Prod.mk.injEq] at hok
          rw [← hok.1]
          have hfil2 : (TimelineEntry.seg idx st en tx :: rest).filter (fun e => e.isSeg)
              = TimelineEntry.seg idx st en tx :: rest.filter (fun e => e.isSeg) := rfl
          rw [hfil2, List.map_cons, List.map_cons, ih _ _ _ _ hrec]
          rfl
    | sil sst sen =>
      simp only [expandWalkGo] at hok
      have hfil : ((TimelineEntry.sil sst sen :: rest).filter (fun e => e.isSeg)) =
          rest.filter (fun e => e.isSeg) := rfl
      rw [hfil]
      rcases hh : rest.head? with _ | e2
      · simp only [hh] at hok
        exact ih _ _ _ _ hok
      · cases e2 with
        | seg i2 s2 e2t t2 =>
          simp only [hh] at hok
          exact ih _ _ _ _ hok
        | sil nst nen =>
          simp only [hh] at hok
          by_cases hab : sen + tol < nst - tol
          · rw [if_pos hab] at hok
            cases nsOn with
            | false => exact ih _ _ _ _ hok
            | true =>
              rw [if_pos rfl] at hok
              rcases hrec : expandWalkGo true tol (TimelineEntry.sil sst sen :: revPrev) rest
                  (ctr + 1) with merr | ⟨outs2, nss2⟩
              · rw [hrec] at hok
                simp at hok
              · rw [hrec] at hok
                simp only [Except.ok.injEq, Prod.mk.injEq] at hok
                rw [← hok.1]
                exact ih _ _ _ _ hrec
          · rw [if_neg hab] at hok
            exact ih _ _ _ _ hok

lemma subsE_sublist_merge (subs : List SubtitleSegment) (sils : List (ℚ × ℚ))
    (hmono : List.Pairwise (fun a b : SubtitleSegment => a.start_time ≤ b.start_time) subs) :
    List.Sublist (subs.map toEntry) (mergeTimeline subs sils) := by
  apply List.sublist_insertionSort
  · exact List.pairwise_map.mpr (hmono.imp (fun h => h))
  · exact List.sublist_append_left _ _

lemma filter_merge_eq (subs : List SubtitleSegment) (sils : List (ℚ × ℚ))
    (hmono : List.Pairwise (fun a b : SubtitleSegment => a.start_time ≤ b.start_time) subs) :
    (mergeTimeline subs sils).filter (fun e => e.isSeg) = subs.map toEntry := by
  have hself : (subs.map toEntry).filter (fun e => e.isSeg) = subs.map toEntry := by
    rw [List.filter_eq_self]
    intro a ha
    rcases List.mem_map.mp ha with ⟨s, _, hs⟩
    rw [← hs]
    rfl
  have hsilf : (sils.map silEntry).filter (fun e => e.isSeg) = [] := by
    rw [List.filter_eq_nil_iff]
    intro a ha
    rcases List.mem_map.mp ha with ⟨s, _, hs⟩
    rw [← hs]
    simp [silEntry, TimelineEntry.isSeg]
  have hsub : List.Sublist (subs.map toEntry) ((mergeTimeline subs sils).filter (fun e => e.isSeg)) := by
    have h2 := (subsE_sublist_merge subs sils hmono).filter (fun e => e.isSeg)
    rwa [hself] at h2
  have hperm : List.Perm ((mergeTimeline subs sils).filter (fun e => e.isSeg)) (subs.map toEntry) := by
    have hp : List.Perm (mergeTimeline subs sils) (subs.map toEntry ++ sils.map silEntry) :=
      List.perm_insertionSort entryLE _
    have := hp.filter (fun e => e.isSeg)
    rwa [List.filter_append, hself, hsilf, List.append_nil] at this
  exact (hsub.eq_of_length hperm.length_eq.symm).symm

/-- C5 (amended): the expand/subtract pass serializes the corrected
subtitle segments in MERGED-TIMELINE order (ascending start time), not
in original index order; this coincides with index order exactly when
the parsed segments' start times are non-decreasing in index order. -/
theorem C5_amended_order (nsOn : Bool) (tol : ℚ) (subs : List SubtitleSegment)
    (sils : List (ℚ × ℚ)) (ctr : ℕ) (outs : List SubtitleSegment)
    (nss : List NonSpeechEntry)
    (hok : expandWalkGo nsOn tol [] (mergeTimeline subs sils) ctr = .ok (outs, nss)) :
    outs.map SubtitleSegment.index =
      ((mergeTimeline subs sils).filter (fun e => e.isSeg)).map TimelineEntry.segIndex ∧
    (List.Pairwise (fun a b : SubtitleSegment => a.start_time ≤ b.start_time) subs →
      outs.map SubtitleSegment.index = subs.map SubtitleSegment.index) := by
  have h1 := expandWalkGo_indices nsOn tol (mergeTimeline subs sils) [] ctr outs nss hok
  refine ⟨h1, fun hmono => ?_⟩
  rw [h1, filter_merge_eq subs sils hmono, List.map_map]
  rfl

/-- Counterexample to C5: two validly parsed segments whose timestamps
are out of index order are written in start order `[2, 1]`, not index
order `[1, 2]`. -/
theorem C5_counterexample :
    expandWalkGo false 0 [] (mergeTimeline [⟨1, 5, 6, "a"⟩, ⟨2, 1, 2, "b"⟩] []) 1 =
      .ok ([⟨2, 1, 2, "b"⟩, ⟨1, 5, 6, "a"⟩], []) ∧
    ([⟨2, 1, 2, "b"⟩, ⟨1, 5, 6, "a"⟩] : List SubtitleSegment).map SubtitleSegment.index ≠
      ([⟨1, 5, 6, "a"⟩, ⟨2, 1, 2, "b"⟩] : List SubtitleSegment).map SubtitleSegment.index := by
  constructor
  · norm_num [mergeTimeline, List.insertionSort, List.orderedInsert, entryLE, toEntry, silEntry,
      TimelineEntry.startT, expandWalkGo, adjStartOf, adjEndOf]
  · simp

/-- Witness for `C5_amended_order` on a start-monotone subtitle list. -/
theorem C5_witness :
    ([⟨1, 1, 2, "x"⟩, ⟨2, 3, 5, "y"⟩] : List SubtitleSegment).map SubtitleSegment.index =
      ([⟨1, 1, 2, "x"⟩, ⟨2, 3, 4, "y"⟩] : List SubtitleSegment).map SubtitleSegment.index :=
  (C5_amended_order false 0 [⟨1, 1, 2, "x"⟩, ⟨2, 3, 4, "y"⟩] [(5, 6)] 1
      [⟨1, 1, 2, "x"⟩, ⟨2, 3, 5, "y"⟩] []
      (by norm_num [mergeTimeline, List.insertionSort, List.orderedInsert, entryLE, toEntry,
        silEntry, TimelineEntry.startT, expandWalkGo, adjStartOf, adjEndOf])).2
    (by norm_num)

/-!
## Claim C3 — invariant violation raises, never clamps
-/

lemma expandWalkGo_ok_no_invalid (nsOn : Bool) (tol : ℚ) :
    ∀ (fl revPrev : List TimelineEntry) (ctr : ℕ)
      (outs : List SubtitleSegment) (nss : List NonSpeechEntry),
      expandWalkGo nsOn tol revPrev fl ctr = .ok (outs, nss) →
      ∀ o ∈ outs, o.start_time ≤ o.end_time := by
  intro fl
  induction fl with
  | nil =>
    intro revPrev ctr outs nss hok o ho
    simp only [expandWalkGo] at hok
    injection hok with h
    injection h with h1 h2
    rw [← h1] at ho
    simp at ho
  | cons e rest ih =>
    intro revPrev ctr outs nss hok o ho
    cases e with
    | seg idx st en tx =>
      simp only [expandWalkGo] at hok
      by_cases hbad : adjEndOf rest.head? en < adjStartOf revPrev.head? st en
      · rw [if_pos hbad] at hok; simp at hok
      · rw [if_neg hbad] at hok
        rcases hrec : expandWalkGo nsOn tol (TimelineEntry.seg idx st en tx :: revPrev) rest ctr
          with merr | ⟨outs2, nss2⟩ <;> rw [hrec] at hok
        · simp at hok
        · simp only [Except.ok.injEq, Prod.mk.injEq] at hok
          rw [← hok.1] at ho
          rcases List.mem_cons.mp ho with hh | hh
          · rw [hh]
            exact not_lt.mp hbad
          · exact ih _ _ _ _ hrec o hh
    | sil sst sen =>
      simp only [expandWalkGo] at hok
      rcases hh : rest.head? with _ | e2
      · simp only [hh] at hok
        exact ih _ _ _ _ hok o ho
      · cases e2 with
        | seg i2 s2 e2t t2 =>
          simp only [hh] at hok
          exact ih _ _ _ _ hok o ho
        | sil nst nen =>
          simp only [hh] at hok
          by_cases hab : sen + tol < nst - tol
          · rw [if_pos hab] at hok
            cases nsOn with
            | false => exact ih _ _ _ _ hok o ho
            | true =>
              rw [if_pos rfl] at hok
              rcases hrec : expandWalkGo true tol (TimelineEntry.sil sst sen :: revPrev) rest
                  (ctr + 1) with merr | ⟨outs2, nss2⟩
              · rw [hrec] at hok
                simp at hok
              · rw [hrec] at hok
                simp only [Except.ok.injEq, Prod.mk.injEq] at hok
                rw [← hok.1] at ho
                exact ih _ _ _ _ hrec o ho
          · rw [if_neg hab] at hok
            exact ih _ _ _ _ hok o ho

lemma expandWalkGo_error_of_bad (nsOn : Bool) (tol : ℚ) :
    ∀ (l1 revPrev : List TimelineEntry) (ctr : ℕ) (idx : ℤ) (st en : ℚ)
      (tx : String) (rest : List TimelineEntry),
      adjEndOf rest.head? en < adjStartOf (l1.reverse ++ revPrev).head? st en →
      exceptIsError
        (expandWalkGo nsOn tol revPrev (l1 ++ TimelineEntry.seg idx st en tx :: rest) ctr)
        = true := by
  intro l1
  induction l1 with
  | nil =>
    intro revPrev ctr idx st en tx rest hbad
    simp only [List.reverse_nil, List.nil_append] at hbad ⊢
    simp only [expandWalkGo]
    rw [if_pos hbad]
    rfl
  | cons x l1 ih =>
    intro revPrev ctr idx st en tx rest hbad
    have hbad2 : adjEndOf rest.head? en <
        adjStartOf (l1.reverse ++ (x :: revPrev)).head? st en := by
      rwa [List.reverse_cons, List.append_assoc] at hbad
    rw [List.cons_append]
    cases x with
    | seg i2 s2 e2 t2 =>
      simp only [expandWalkGo]
      by_cases hb2 : adjEndOf (l1 ++ TimelineEntry.seg idx st en tx :: rest).head? e2 <
          adjStartOf revPrev.head? s2 e2
      · rw [if_pos hb2]
        rfl
      · rw [if_neg hb2]
        rcases hrec : expandWalkGo nsOn tol (TimelineEntry.seg i2 s2 e2 t2 :: revPrev)
            (l1 ++ TimelineEntry.seg idx st en tx :: rest) ctr with merr | p
        · rfl
        · have := ih (TimelineEntry.seg i2 s2 e2 t2 :: revPrev) ctr idx st en tx rest hbad2
          rw [hrec] at this
          simp [exceptIsError] at this
    | sil sst sen =>
      simp only [expandWalkGo]
      rcases hh : (l1 ++ TimelineEntry.seg idx st en tx :: rest).head? with _ | e2
      · exact ih _ _ _ _ _ _ _ hbad2
      · cases e2 with
        | seg i2 s2 e2t t2 => exact ih _ _ _ _ _ _ _ hbad2
        | sil nst nen =>
          dsimp only
          by_cases hab : sen + tol < nst - tol
          · rw [if_pos hab]
            cases nsOn with
            | false => exact ih _ _ _ _ _ _ _ hbad2
            | true =>
              rw [if_pos rfl]
              rcases hrec : expandWalkGo true tol (TimelineEntry.sil sst sen :: revPrev)
                  (l1 ++ TimelineEntry.seg idx st en tx :: rest) (ctr + 1) with merr | p
              · rfl
              · have := ih (TimelineEntry.sil sst sen :: revPrev) (ctr + 1) idx st en tx rest hbad2
                rw [hrec] at this
                simp [exceptIsError] at this
          · rw [if_neg hab]
            exact ih _ _ _ _ _ _ _ hbad2

/-- C3 (confirmed): in expand/subtract mode, whenever the walk reaches a
subtitle entry whose adjusted boundaries satisfy start > end, the pass
raises the `ValueError` (`Invalid segment`), never silently clamps; and
a successful pass never contains a segment with start > end in its
output, so no such segment is ever written. -/
theorem C3_invalid_raises :
    (∀ (nsOn : Bool) (tol : ℚ) (fl revPrev : List TimelineEntry) (ctr : ℕ)
        (outs : List SubtitleSegment) (nss : List NonSpeechEntry),
        expandWalkGo nsOn tol revPrev fl ctr = .ok (outs, nss) →
        ∀ o ∈ outs, o.start_time ≤ o.end_time) ∧
    (∀ (nsOn : Bool) (tol : ℚ) (l1 : List TimelineEntry) (idx : ℤ) (st en : ℚ)
        (tx : String) (rest : List TimelineEntry),
        adjEndOf rest.head? en < adjStartOf l1.reverse.head? st en →
        exceptIsError (expandWalk nsOn tol (l1 ++ TimelineEntry.seg idx st en tx :: rest))
          = true) := by
  constructor
  · intro nsOn tol fl revPrev ctr outs nss hok o ho
    exact expandWalkGo_ok_no_invalid nsOn tol fl revPrev ctr outs nss hok o ho
  · intro nsOn tol l1 idx st en tx rest hbad
    have h2 : adjEndOf rest.head? en < adjStartOf (l1.reverse ++ ([] : List TimelineEntry)).head? st en := by
      rwa [List.append_nil]
    exact expandWalkGo_error_of_bad nsOn tol l1 [] 1 idx st en tx rest h2

/-- Witness for `C3_invalid_raises`: a segment pulled to start 5 by the
preceding silence and cut to end 4.8 by the following silence makes the
whole pass error out. -/
theorem C3_invalid_raises_witness :
    exceptIsError (expandWalk false 0
      [TimelineEntry.sil 0 5, TimelineEntry.seg 1 (9/2) 6 "a", TimelineEntry.sil (24/5) 9])
      = true :=
  C3_invalid_raises.2 false 0 [TimelineEntry.sil 0 5] 1 (9/2) 6 "a"
    [TimelineEntry.sil (24/5) 9]
    (by norm_num [adjStartOf, adjEndOf, List.head?, List.reverse_cons])

/-!
## Claims C4, C9 — behaviour of the expand/subtract walk
-/

lemma expandWalkGo_cons_seg (nsOn : Bool) (tol : ℚ) (revPrev : List TimelineEntry)
    (idx : ℤ) (st en : ℚ) (tx : String) (rest : List TimelineEntry) (ctr : ℕ) :
    expandWalkGo nsOn tol revPrev (TimelineEntry.seg idx st en tx :: rest) ctr =
      (if adjEndOf rest.head? en < adjStartOf revPrev.head? st en then
        .error "Invalid segment"
      else
        match expandWalkGo nsOn tol (TimelineEntry.seg idx st en tx :: revPrev) rest ctr with
        | .error m => .error m
        | .ok (outs, nss) =>
          .ok (⟨idx, adjStartOf revPrev.head? st en, adjEndOf rest.head? en, tx⟩ :: outs,
            nss)) := rfl

lemma expandWalkGo_sil_seg (nsOn : Bool) (tol : ℚ) (revPrev : List TimelineEntry)
    (a b : ℚ) (idx : ℤ) (st en : ℚ) (tx : String) (rest : List TimelineEntry) (ctr : ℕ) :
    expandWalkGo nsOn tol revPrev
        (TimelineEntry.sil a b :: TimelineEntry.seg idx st en tx :: rest) ctr =
      expandWalkGo nsOn tol (TimelineEntry.sil a b :: revPrev)
        (TimelineEntry.seg idx st en tx :: rest) ctr := rfl

lemma expandWalkGo_sil_single (nsOn : Bool) (tol : ℚ) (revPrev : List TimelineEntry)
    (a b : ℚ) (ctr : ℕ) :
    expandWalkGo nsOn tol revPrev [TimelineEntry.sil a b] ctr =
      expandWalkGo nsOn tol (TimelineEntry.sil a b :: revPrev) [] ctr := rfl

lemma expandWalkGo_sil_sil (nsOn : Bool) (tol : ℚ) (revPrev : List TimelineEntry)
    (a b a2 b2 : ℚ) (rest : List TimelineEntry) (ctr : ℕ) :
    expandWalkGo nsOn tol revPrev
        (TimelineEntry.sil a b :: TimelineEntry.sil a2 b2 :: rest) ctr =
      (if b + tol < a2 - tol then
        if nsOn then
          match expandWalkGo nsOn tol (TimelineEntry.sil a b :: revPrev)
              (TimelineEntry.sil a2 b2 :: rest) (ctr + 1) with
          | .error m => .error m
          | .ok (outs, nss) =>
            .ok (outs,
              ⟨ctr, b + tol, a2 - tol,
                nonSpeechText (describeRef (findSegRef revPrev) "start of audio")
                  (describeRef (findSegRef (TimelineEntry.sil a2 b2 :: rest).tail)
                    "end of audio")⟩ :: nss)
        else expandWalkGo nsOn tol (TimelineEntry.sil a b :: revPrev)
          (TimelineEntry.sil a2 b2 :: rest) ctr
      else expandWalkGo nsOn tol (TimelineEntry.sil a b :: revPrev)
        (TimelineEntry.sil a2 b2 :: rest) ctr) := rfl

/-- C4 (amended): a subtitle entry between two silence entries in the
merged timeline ends with its end equal to the FOLLOWING silence's
start, and its start equal to the PRECEDING silence's end ONLY IF that
end is less than the segment's original end — otherwise the start is
left unchanged (the walk's guard `full_list[index-1]['end'] < s['end']`). -/
theorem C4_amended_span (nsOn : Bool) (tol : ℚ) (revPrev : List TimelineEntry)
    (ps pe : ℚ) (idx : ℤ) (st en : ℚ) (tx : String) (ns2 ne2 : ℚ)
    (rest : List TimelineEntry) (ctr : ℕ)
    (outs : List SubtitleSegment) (nss : List NonSpeechEntry)
    (hok : expandWalkGo nsOn tol revPrev
      (TimelineEntry.sil ps pe :: TimelineEntry.seg idx st en tx ::
        TimelineEntry.sil ns2 ne2 :: rest) ctr = .ok (outs, nss)) :
    outs.head? = some ⟨idx, if pe < en then pe else st, ns2, tx⟩ := by
  rw [expandWalkGo_sil_seg, expandWalkGo_cons_seg] at hok
  by_cases hbad : adjEndOf (TimelineEntry.sil ns2 ne2 :: rest).head? en <
      adjStartOf (TimelineEntry.sil ps pe :: revPrev).head? st en
  · rw [if_pos hbad] at hok
    simp at hok
  · rw [if_neg hbad] at hok
    rcases hrec : expandWalkGo nsOn tol
        (TimelineEntry.seg idx st en tx :: TimelineEntry.sil ps pe :: revPrev)
        (TimelineEntry.sil ns2 ne2 :: rest) ctr with merr | ⟨outs2, nss2⟩ <;>
      rw [hrec] at hok
    · simp at hok
    · simp only [Except.ok.injEq, Prod.mk.injEq] at hok
      rw [← hok.1]
      rfl

/-- Counterexample to C4: the subtitle `[1, 2]` sits between silences
`[0.5, 3]` and `[1.5, 9]`, yet its corrected start stays 1 instead of
becoming the preceding silence's end 3, because that end is not below
the segment's original end. -/
theorem C4_counterexample :
    expandWalk false (1/100) (mergeTimeline [⟨1, 1, 2, "a"⟩] [(1/2, 3), (3/2, 9)]) =
      .ok ([⟨1, 1, 3/2, "a"⟩], []) ∧
    (⟨1, 1, 3/2, "a"⟩ : SubtitleSegment).start_time ≠ (TimelineEntry.sil (1/2) 3).endT := by
  constructor
  · norm_num [mergeTimeline, List.insertionSort, List.orderedInsert, entryLE, toEntry,
      silEntry, TimelineEntry.startT, expandWalk, expandWalkGo, adjStartOf, adjEndOf]
  · norm_num [TimelineEntry.endT]

/-- Witness for `C4_amended_span` on a concrete three-entry timeline. -/
theorem C4_witness :
    ([⟨1, 1, 3, "a"⟩] : List SubtitleSegment).head? =
      some ⟨1, if (1:ℚ) < 5 then 1 else 2, 3, "a"⟩ :=
  C4_amended_span false 0 [] 0 1 1 2 5 "a" 3 4 [] 1 [⟨1, 1, 3, "a"⟩] []
    (by norm_num [expandWalkGo, adjStartOf, adjEndOf, List.head?])

/-- C9 (confirmed): with non-speech extraction enabled, the adjacent
silences `[1,2]` and `[4,5]` with nothing between them produce exactly
one NonSpeechEntry, numbered 1, covering the orphan region `[2,4]`
shrunk by the 0.01 tolerance on each side; and in general any adjacent
silence pair whose tolerance-adjusted gap has non-positive duration is
skipped without error and produces no entry. -/
theorem C9_orphan_detection :
    (expandWalk true (1/100) [TimelineEntry.sil 1 2, TimelineEntry.sil 4 5] =
      .ok ([], [⟨1, 201/100, 399/100, nonSpeechText "start of audio" "end of audio"⟩])) ∧
    (∀ (nsOn : Bool) (tol : ℚ) (revPrev : List TimelineEntry) (s1a s1b s2a s2b : ℚ)
        (rest : List TimelineEntry) (ctr : ℕ),
        s2a - tol ≤ s1b + tol →
        expandWalkGo nsOn tol revPrev
          (TimelineEntry.sil s1a s1b :: TimelineEntry.sil s2a s2b :: rest) ctr =
        expandWalkGo nsOn tol (TimelineEntry.sil s1a s1b :: revPrev)
          (TimelineEntry.sil s2a s2b :: rest) ctr) := by
  constructor
  · norm_num [expandWalk, expandWalkGo, describeRef, findSegRef, List.head?]
  · intro nsOn tol revPrev s1a s1b s2a s2b rest ctr h
    rw [expandWalkGo_sil_sil]
    rw [if_neg (not_lt.mpr h)]

/-- Witness for `C9_orphan_detection` on a degenerate (overlapping)
silence pair whose adjusted gap is non-positive. -/
theorem C9_witness :
    expandWalkGo true (1/100) [] [TimelineEntry.sil 1 5, TimelineEntry.sil 3 9] 1 =
      expandWalkGo true (1/100) [TimelineEntry.sil 1 5] [TimelineEntry.sil 3 9] 1 :=
  C9_orphan_detection.2 true (1/100) [] 1 5 3 9 [] 1 (by norm_num)

/-!
## Claim C7 — idempotence of the reconciler
-/

lemma skipBefore_mem {t : ℚ} : ∀ {u : List (ℚ × ℚ)} {x : ℚ × ℚ},
    x ∈ skipBefore t u → x ∈ u := by
  intro u
  induction u with
  | nil => intro x hx; simp [skipBefore] at hx
  | cons p r ih =>
    obtain ⟨a, b⟩ := p
    intro x hx
    simp only [skipBefore] at hx
    by_cases hb : b < t
    · rw [if_pos hb] at hx
      exact List.mem_cons_of_mem _ (ih hx)
    · rw [if_neg hb] at hx
      exact hx

lemma skipBefore_chain {t : ℚ} : ∀ {u : List (ℚ × ℚ)},
    List.Chain' (fun a b : ℚ × ℚ => a.2 < b.1) u →
    List.Chain' (fun a b : ℚ × ℚ => a.2 < b.1) (skipBefore t u) := by
  intro u
  induction u with
  | nil => intro h; exact h
  | cons p r ih =>
    obtain ⟨a, b⟩ := p
    intro h
    simp only [skipBefore]
    by_cases hb : b < t
    · rw [if_pos hb]
      exact ih h.tail
    · rw [if_neg hb]
      exact h

lemma skipBefore_again {t t' : ℚ} (htt : t ≤ t') : ∀ (u : List (ℚ × ℚ)),
    skipBefore t' (skipBefore t u) = skipBefore t' u := by
  intro u
  induction u with
  | nil => rfl
  | cons p r ih =>
    obtain ⟨a, b⟩ := p
    simp only [skipBefore]
    by_cases hb : b < t
    · rw [if_pos hb, ih, if_pos (lt_of_lt_of_le hb htt)]
    · rw [if_neg hb]
      rfl

lemma headLB {a b : ℚ} : ∀ {r : List (ℚ × ℚ)},
    List.Chain' (fun x y : ℚ × ℚ => x.2 < y.1) ((a, b) :: r) →
    (∀ p ∈ r, p.1 ≤ p.2) →
    ∀ p ∈ r, b < p.1 := by
  intro r
  induction r generalizing a b with
  | nil => intro _ _ p hp; simp at hp
  | cons q r2 ih =>
    obtain ⟨e, f⟩ := q
    intro hch hwf p hp
    have hbe : b < e := List.chain'_cons.mp hch |>.1
    rcases List.mem_cons.mp hp with hh | hh
    · rw [hh]
      exact hbe
    · have hef : e ≤ f := hwf (e, f) (by simp)
      have := ih (List.chain'_cons.mp hch).2 (fun q hq => hwf q (by simp [hq])) p hh
      calc b < e := hbe
        _ ≤ f := hef
        _ < p.1 := this

lemma skipBefore_restart : ∀ (u : List (ℚ × ℚ)),
    List.Chain' (fun x y : ℚ × ℚ => x.2 < y.1) u →
    (∀ p ∈ u, p.1 ≤ p.2) →
    ∀ (t c d : ℚ) (r2 : List (ℚ × ℚ)),
      skipBefore t u = (c, d) :: r2 → skipBefore c u = (c, d) :: r2 := by
  intro u
  induction u with
  | nil => intro _ _ t c d r2 h; simp [skipBefore] at h
  | cons p r ih =>
    obtain ⟨a, b⟩ := p
    intro hch hwf t c d r2 h
    simp only [skipBefore] at h
    by_cases hb : b < t
    · rw [if_pos hb] at h
      have hcd : (c, d) ∈ r := skipBefore_mem (t := t) (by rw [h]; simp)
      have hbc : b < c := headLB hch (fun q hq => hwf q (by simp [hq])) (c, d) hcd
      have hr := ih hch.tail (fun q hq => hwf q (by simp [hq])) t c d r2 h
      rw [skipBefore, if_pos hbc, hr]
    · rw [if_neg hb] at h
      injection h with h1 h2
      injection h1 with hac hbd
      subst hac
      subst hbd
      subst h2
      rw [skipBefore, if_neg (not_lt.mpr (hwf (a, b) (by simp)))]

lemma subtractStep_idem (u u1 u2 : List (ℚ × ℚ)) (st en st' en' : ℚ)
    (hwf : ∀ p ∈ u, p.1 ≤ p.2)
    (hch : List.Chain' (fun x y : ℚ × ℚ => x.2 < y.1) u)
    (hu1 : u1 = skipBefore st u)
    (hst : st' = fixStart st en u1)
    (hu2 : u2 = skipBefore en u1)
    (hen : en' = fixEnd st' en u2) :
    skipBefore st' u = u1 ∧
    fixStart st' en' u1 = st' ∧
    skipBefore en' u1 = u2 ∧
    fixEnd st' en' u2 = en' := by
  have hwf1 : ∀ p ∈ u1, p.1 ≤ p.2 := by
    intro p hp
    exact hwf p (skipBefore_mem (by rw [← hu1]; exact hp))
  have hch1 : List.Chain' (fun x y : ℚ × ℚ => x.2 < y.1) u1 := by
    rw [hu1]; exact skipBefore_chain hch
  have hen_le : en' ≤ en := by rw [hen]; exact fixEnd_le _ _ _
  have hA : skipBefore st' u = u1 := by
    rcases hu1c : u1 with _ | ⟨⟨ss, se⟩, r⟩
    · rw [hu1c] at hst
      simp only [fixStart] at hst
      rw [hst, ← hu1]
      exact hu1c
    · rw [hu1c] at hst
      simp only [fixStart] at hst
      by_cases hcond : ss < st ∧ st < se ∧ se < en
      · rw [if_pos hcond] at hst
        rw [hst, ← skipBefore_again (le_of_lt hcond.2.1) u, ← hu1, hu1c,
          skipBefore, if_neg (lt_irrefl se)]
      · rw [if_neg hcond] at hst
        rw [hst, ← hu1]
        exact hu1c
  have hB : fixStart st' en' u1 = st' := by
    rcases hu1c : u1 with _ | ⟨⟨ss, se⟩, r⟩
    · rfl
    · rw [hu1c] at hst
      simp only [fixStart] at hst
      simp only [fixStart]
      by_cases hcond : ss < st ∧ st < se ∧ se < en
      · rw [if_pos hcond] at hst
        rw [if_neg]
        rintro ⟨_, hlt, _⟩
        rw [hst] at hlt
        exact lt_irrefl se hlt
      · rw [if_neg hcond] at hst
        rw [if_neg, hst]
        rintro ⟨h1, h2, h3⟩
        rw [hst] at h1 h2
        exact hcond ⟨h1, h2, lt_of_lt_of_le h3 hen_le⟩
  have hC : skipBefore en' u1 = u2 := by
    rcases hu2c : u2 with _ | ⟨⟨ssj, sej⟩, r2⟩
    · rw [hu2c] at hen
      simp only [fixEnd] at hen
      rw [hen, ← hu2]
      exact hu2c
    · rw [hu2c] at hen
      simp only [fixEnd] at hen
      by_cases hcond2 : st' < ssj ∧ en < sej ∧ ssj < en
      · rw [if_pos hcond2] at hen
        rw [hen]
        exact skipBefore_restart u1 hch1 hwf1 en ssj sej r2 (by rw [← hu2]; exact hu2c)
      · rw [if_neg hcond2] at hen
        rw [hen, ← hu2]
        exact hu2c
  have hD : fixEnd st' en' u2 = en' := by
    rcases hu2c : u2 with _ | ⟨⟨ssj, sej⟩, r2⟩
    · rfl
    · rw [hu2c] at hen
      simp only [fixEnd] at hen
      simp only [fixEnd]
      by_cases hcond2 : st' < ssj ∧ en < sej ∧ ssj < en
      · rw [if_pos hcond2] at hen
        rw [if_neg]
        rintro ⟨_, _, hlt⟩
        rw [hen] at hlt
        exact lt_irrefl ssj hlt
      · rw [if_neg hcond2] at hen
        rw [if_neg, hen]
        rw [hen]
        exact hcond2
  exact ⟨hA, hB, hC, hD⟩

lemma subtractGo_idem : ∀ (subs : List SubtitleSegment) (u : List (ℚ × ℚ)),
    (∀ p ∈ u, p.1 ≤ p.2) →
    List.Chain' (fun x y : ℚ × ℚ => x.2 < y.1) u →
    subtractGo u (subtractGo u subs) = subtractGo u subs := by
  intro subs
  induction subs with
  | nil => intro u _ _; rfl
  | cons s rest ih =>
    intro u hwf hch
    obtain ⟨hA, hB, hC, hD⟩ := subtractStep_idem u (skipBefore s.start_time u)
      (skipBefore s.end_time (skipBefore s.start_time u))
      s.start_time s.end_time
      (fixStart s.start_time s.end_time (skipBefore s.start_time u))
      (fixEnd (fixStart s.start_time s.end_time (skipBefore s.start_time u))
        s.end_time (skipBefore s.end_time (skipBefore s.start_time u)))
      hwf hch rfl rfl rfl rfl
    have hwf2 : ∀ p ∈ skipBefore s.end_time (skipBefore s.start_time u), p.1 ≤ p.2 :=
      fun p hp => hwf p (skipBefore_mem (skipBefore_mem hp))
    have hch2 : List.Chain' (fun x y : ℚ × ℚ => x.2 < y.1)
        (skipBefore s.end_time (skipBefore s.start_time u)) :=
      skipBefore_chain (skipBefore_chain hch)
    simp only [subtractGo]
    rw [hA, hB, hC, hD, ih _ hwf2 hch2]

/-- C7 (amended): SUBTRACT-ONLY mode is idempotent whenever the silence
segments are well-formed (start at most end) and strictly separated
(each end strictly before the next start), as the Acoustic Timeline
Builder always produces them; re-running it on its own output changes
nothing.  Expand/subtract mode, by contrast, is NOT idempotent
(`C7_counterexample`). -/
theorem C7_amended_subtract_idempotent (sils : List (ℚ × ℚ)) (subs : List SubtitleSegment)
    (hwf : ∀ p ∈ sils, p.1 ≤ p.2)
    (hsep : List.Chain' (fun x y : ℚ × ℚ => x.2 < y.1) sils) :
    subtractOnly sils (subtractOnly sils subs) = subtractOnly sils subs :=
  subtractGo_idem subs sils hwf hsep

/-- Counterexample to C7 for expand/subtract mode: a first pass over two
overlapping subtitles succeeds, but re-running the pass on its corrected
output (same silences) moves segment 2's start from 1.5 to 2 and
segment 1's end from 3 to 5. -/
theorem C7_counterexample :
    expandWalk false (1/100) (mergeTimeline [⟨1, 1, 3, "a"⟩, ⟨2, 3/2, 10, "b"⟩]
        [(0, 2), (5, 6)]) =
      .ok ([⟨1, 2, 3, "a"⟩, ⟨2, 3/2, 5, "b"⟩], []) ∧
    expandWalk false (1/100) (mergeTimeline [⟨1, 2, 3, "a"⟩, ⟨2, 3/2, 5, "b"⟩]
        [(0, 2), (5, 6)]) =
      .ok ([⟨2, 2, 5, "b"⟩, ⟨1, 2, 5, "a"⟩], []) ∧
    (⟨2, 3/2, 5, "b"⟩ : SubtitleSegment).start_time ≠
      (⟨2, 2, 5, "b"⟩ : SubtitleSegment).start_time := by
  refine ⟨?_, ?_, by norm_num⟩ <;>
    norm_num [mergeTimeline, List.insertionSort, List.orderedInsert, entryLE, toEntry,
      silEntry, TimelineEntry.startT, expandWalk, expandWalkGo, adjStartOf, adjEndOf]

/-- Witness for `C7_amended_subtract_idempotent` on builder-like
silences. -/
theorem C7_witness :
    subtractOnly [(0, 2), (5, 6)] (subtractOnly [(0, 2), (5, 6)] [⟨1, 1, 3, "a"⟩]) =
      subtractOnly [(0, 2), (5, 6)] [⟨1, 1, 3, "a"⟩] :=
  C7_amended_subtract_idempotent [(0, 2), (5, 6)] [⟨1, 1, 3, "a"⟩]
    (by intro p hp
        simp only [List.mem_cons, List.not_mem_nil, or_false] at hp
        rcases hp with h | h <;> subst h <;> norm_num)
    (by simp [List.chain'_cons]; norm_num)
